import Mathlib

/-!
Verification of the `@phnq/message` conversation/RPC runtime.

This development shallowly embeds the core of the library:

* `serialize.ts` — the value annotation codec (`annotate` / `deannotate`);
* `sign.ts` — message signing and verification (`signMessage` / `verifyMessage`);
* `MessageConnection.ts` — responder dispatch (`handleRequest`), requester
  dispatch (`doRequest`), and the streamed-response consumption loop;
* `transports/NATSTransport.ts` — the chunked framing codec
  (`sendMessageInChunks` / `receiveMessageChunk`) and the reply-subject cache.

JavaScript strings are modelled as lists of characters (`Str`), JavaScript
values (payloads) as the inductive `Value`, and byte buffers as lists of
naturals.  External library functions that the code calls (the `object-hash`
package, `JSON.stringify`, `Date#toISOString`/`new Date(string)`, and the
`AsyncQueue` of `@phnq/streams`) are not part of the repository; they are
modelled from the spec where indicated.
-/

/-- JavaScript strings are modelled as lists of characters. -/
abbrev Str := List Char

/-- Message type tags, from `MessageTransport.ts` (`MessageType`).  The `End`
tag is written `end_` because `end` is a reserved word in Lean. -/
inductive MessageType where
  | request
  | response
  | multi
  | end_
  | error
  | anomaly
deriving DecidableEq, Repr

mutual
/-- JavaScript values as they occur in payloads: `null`, `undefined`,
booleans, numbers, strings, `Date` objects (epoch milliseconds), arrays and
plain objects.  Arrays and objects are represented by the mutually defined
list types below so that structural recursion and induction stay simple. -/
inductive Value where
  | vnull
  | vundef
  | vbool (b : Bool)
  | vnum (n : Int)
  | vstr (s : Str)
  | vdate (ms : Int)
  | varr (items : ValueList)
  | vobj (fields : ObjFields)
deriving DecidableEq, Repr

/-- A JavaScript array of values. -/
inductive ValueList where
  | nil
  | cons (hd : Value) (tl : ValueList)
deriving DecidableEq, Repr

/-- The fields of a JavaScript object, in insertion order. -/
inductive ObjFields where
  | nil
  | cons (key : Str) (hd : Value) (tl : ObjFields)
deriving DecidableEq, Repr
end

/-- Truthiness of a JavaScript value: `null`, `undefined`, `false`, `0` and
the empty string are falsy; every other value (including every object and
array) is truthy. -/
def jsTruthy : Value → Bool
  | .vnull => false
  | .vundef => false
  | .vbool b => b
  | .vnum n => n != 0
  | .vstr s => !s.isEmpty
  | .vdate _ => true
  | .varr _ => true
  | .vobj _ => true

/-! ### Integer rendering for dates

`Date#toISOString` and `new Date(isoString)` are JavaScript built-ins, not
code of this repository. -/

/-- Binary rendering of a natural number, least significant bit first
(empty for `0`). -/
def natBits (n : Nat) : List Char :=
  if h : n = 0 then [] else (if n % 2 = 1 then '1' else '0') :: natBits (n / 2)
termination_by n
decreasing_by exact Nat.div_lt_self (Nat.pos_of_ne_zero h) (by omega)

/-- Value of a binary rendering, inverse to `natBits`. -/
def bitsVal : List Char → Nat
  | [] => 0
  | c :: cs => (if c = '1' then 1 else 0) + 2 * bitsVal cs

theorem bitsVal_natBits (n : Nat) : bitsVal (natBits n) = n := by
  induction n using Nat.strong_induction_on with
  | _ n ih =>
    unfold natBits
    split
    · simp [bitsVal, *]
    · rename_i h
      have h2 : n / 2 < n := Nat.div_lt_self (Nat.pos_of_ne_zero h) (by omega)
      rw [bitsVal, ih _ h2]
      by_cases hm : n % 2 = 1 <;> simp [hm] <;> omega

/-- Every character of a binary rendering is `'0'` or `'1'`. -/
theorem natBits_mem (n : Nat) : ∀ c ∈ natBits n, c = '0' ∨ c = '1' := by
  induction n using Nat.strong_induction_on with
  | _ n ih =>
    unfold natBits
    split
    · simp
    · rename_i h
      have h2 : n / 2 < n := Nat.div_lt_self (Nat.pos_of_ne_zero h) (by omega)
      intro c hc
      rcases List.mem_cons.mp hc with hc | hc
      · subst hc; split <;> simp
      · exact ih _ h2 c hc

/-- Signed binary rendering of an integer. -/
def intChars (i : Int) : List Char :=
  if i < 0 then '-' :: natBits (-i).toNat else '+' :: natBits i.toNat

/-- Inverse of `intChars`. -/
def intVal : List Char → Int
  | [] => 0
  | c :: cs => if c = '-' then -(bitsVal cs : Int) else (bitsVal cs : Int)

theorem intVal_intChars (i : Int) : intVal (intChars i) = i := by
  unfold intChars
  split
  · rename_i h
    simp [intVal, bitsVal_natBits]
    omega
  · rename_i h
    simp [intVal, bitsVal_natBits]
    omega

/-- Modelled from the spec: `Date#toISOString` — the ISO-8601 rendering of a
timestamp.  The repository calls the JavaScript built-in; here it is modelled
as an injective rendering of the epoch-millisecond value, marked by a leading
`'T'` so that it is never empty. -/
def isoString (ms : Int) : Str := 'T' :: intChars ms

/-- Modelled from the spec: `new Date(s)` — parsing an ISO-8601 string back
to its epoch-millisecond timestamp; left inverse of `isoString`. -/
def parseDateMs (s : Str) : Int := intVal (s.drop 1)

theorem parseDateMs_isoString (ms : Int) : parseDateMs (isoString ms) = ms := by
  simp [parseDateMs, isoString, intVal_intChars]

/-! ### The annotation codec, from `serialize.ts` -/

/-- The date-annotation suffix `"@@@D"`. -/
def dateSuffix : Str := ['@', '@', '@', 'D']

/-- Matching a string against `DATE_RE = /^(.+)@@@D$/`: succeeds iff the
string consists of a non-empty prefix followed by `"@@@D"`, returning the
prefix (the regex group is greedy, so the prefix is everything up to the
final four characters). -/
def dateMatch (s : Str) : Option Str :=
  if 5 ≤ s.length ∧ s.drop (s.length - 4) = dateSuffix then
    some (s.take (s.length - 4))
  else none

mutual
/-- The `annotate` function of `serialize.ts`: arrays map recursively, a
`Date` becomes its ISO string with the `"@@@D"` suffix, objects map
recursively over their values, and all other values pass through. -/
def annotate : Value → Value
  | .varr items => .varr (annotateList items)
  | .vdate ms => .vstr (isoString ms ++ dateSuffix)
  | .vobj fields => .vobj (annotateObj fields)
  | .vnull => .vnull
  | .vundef => .vundef
  | .vbool b => .vbool b
  | .vnum n => .vnum n
  | .vstr s => .vstr s

/-- Elementwise `annotate` over an array (`arr.map(annotate)`). -/
def annotateList : ValueList → ValueList
  | .nil => .nil
  | .cons v tl => .cons (annotate v) (annotateList tl)

/-- `annotate` over an object's values (`Object.keys` traversal). -/
def annotateObj : ObjFields → ObjFields
  | .nil => .nil
  | .cons k v tl => .cons k (annotate v) (annotateObj tl)
end

mutual
/-- The `deannotate` function of `serialize.ts`: arrays map recursively, a
string matching `DATE_RE` becomes a `Date` parsed from the regex group,
objects map recursively over their values, and all other values pass
through. -/
def deannotate : Value → Value
  | .varr items => .varr (deannotateList items)
  | .vstr s =>
    match dateMatch s with
    | some iso => .vdate (parseDateMs iso)
    | none => .vstr s
  | .vobj fields => .vobj (deannotateObj fields)
  | .vnull => .vnull
  | .vundef => .vundef
  | .vbool b => .vbool b
  | .vnum n => .vnum n
  | .vdate ms => .vdate ms

/-- Elementwise `deannotate` over an array. -/
def deannotateList : ValueList → ValueList
  | .nil => .nil
  | .cons v tl => .cons (deannotate v) (deannotateList tl)

/-- `deannotate` over an object's values. -/
def deannotateObj : ObjFields → ObjFields
  | .nil => .nil
  | .cons k v tl => .cons k (deannotate v) (deannotateObj tl)
end

mutual
/-- A value is date-suffix-free when none of the plain strings occurring in
it (string leaves; object keys are never rewritten by the codec) ends with
the `"@@@D"` suffix. -/
def goodVal : Value → Bool
  | .vstr s => (dateMatch s).isNone
  | .varr items => goodList items
  | .vobj fields => goodObj fields
  | _ => true

/-- Date-suffix-freeness of every element of an array. -/
def goodList : ValueList → Bool
  | .nil => true
  | .cons v tl => goodVal v && goodList tl

/-- Date-suffix-freeness of every value of an object. -/
def goodObj : ObjFields → Bool
  | .nil => true
  | .cons _ v tl => goodVal v && goodObj tl
end

theorem dateMatch_annotated (iso : Str) (h : iso ≠ []) :
    dateMatch (iso ++ dateSuffix) = some iso := by
  have hlen : (iso ++ dateSuffix).length = iso.length + 4 := by
    simp [dateSuffix]
  have hpos : 1 ≤ iso.length := by
    cases iso with
    | nil => exact absurd rfl h
    | cons a l => simp
  have h4 : iso.length + 4 - 4 = iso.length := by omega
  unfold dateMatch
  rw [hlen, h4, List.drop_left, List.take_left, if_pos]
  exact ⟨by omega, rfl⟩

mutual
theorem deannotate_annotate : ∀ v : Value, goodVal v = true → deannotate (annotate v) = v
  | .vnull, _ => rfl
  | .vundef, _ => rfl
  | .vbool _, _ => rfl
  | .vnum _, _ => rfl
  | .vstr s, h => by
    simp only [goodVal, Option.isNone_iff_eq_none] at h
    simp [annotate, deannotate, h]
  | .vdate ms, _ => by
    have hne : isoString ms ≠ [] := by simp [isoString]
    simp [annotate, deannotate, dateMatch_annotated _ hne, parseDateMs_isoString]
  | .varr items, h => by
    simp only [goodVal] at h
    simp [annotate, deannotate, deannotateList_annotateList items h]
  | .vobj fields, h => by
    simp only [goodVal] at h
    simp [annotate, deannotate, deannotateObj_annotateObj fields h]

theorem deannotateList_annotateList :
    ∀ l : ValueList, goodList l = true → deannotateList (annotateList l) = l
  | .nil, _ => rfl
  | .cons v tl, h => by
    simp only [goodList, Bool.and_eq_true] at h
    simp [annotateList, deannotateList, deannotate_annotate v h.1,
      deannotateList_annotateList tl h.2]

theorem deannotateObj_annotateObj :
    ∀ f : ObjFields, goodObj f = true → deannotateObj (annotateObj f) = f
  | .nil, _ => rfl
  | .cons k v tl, h => by
    simp only [goodObj, Bool.and_eq_true] at h
    simp [annotateObj, deannotateObj, deannotate_annotate v h.1,
      deannotateObj_annotateObj tl h.2]
end

/-! ### Injective encodings used to model external hashing functions

`object-hash` (npm) and `JSON.stringify` are external dependencies of
`sign.ts`, not code of this repository.  The spec describes them as stable,
deterministic encodings; they are modelled here as concrete injective
functions. -/

/-- Numeric code of a character. -/
def charCode (c : Char) : Nat := c.toNat

theorem charCode_inj : Function.Injective charCode := by
  intro a b h
  exact Char.ext (UInt32.ext h)

/-- Injective encoding of a string into a natural number. -/
def strEnc : Str → Nat
  | [] => 0
  | c :: cs => Nat.pair (charCode c) (strEnc cs) + 1

theorem strEnc_inj : ∀ s t : Str, strEnc s = strEnc t → s = t
  | [], [], _ => rfl
  | [], _ :: _, h => by simp [strEnc] at h
  | _ :: _, [], h => by simp [strEnc] at h
  | c :: cs, d :: ds, h => by
    simp only [strEnc, Nat.add_right_cancel_iff, Nat.pair_eq_pair] at h
    rw [charCode_inj h.1, strEnc_inj cs ds h.2]

/-- Injective encoding of an integer into a natural number. -/
def intEnc : Int → Nat
  | .ofNat k => Nat.pair 0 k
  | .negSucc k => Nat.pair 1 k

theorem intEnc_inj : ∀ i j : Int, intEnc i = intEnc j → i = j := by
  intro i j h
  cases i <;> cases j <;> simp [intEnc, Nat.pair_eq_pair] at h <;> simp [h]

/-- Numeric code of a message type tag. -/
def typeCode : MessageType → Nat
  | .request => 0
  | .response => 1
  | .multi => 2
  | .end_ => 3
  | .error => 4
  | .anomaly => 5

theorem typeCode_inj : ∀ a b : MessageType, typeCode a = typeCode b → a = b := by
  intro a b h
  cases a <;> cases b <;> simp [typeCode] at h <;> rfl

mutual
/-- Injective encoding of a value into a natural number. -/
def encV : Value → Nat
  | .vnull => Nat.pair 0 0
  | .vundef => Nat.pair 1 0
  | .vbool b => Nat.pair 2 (cond b 1 0)
  | .vnum n => Nat.pair 3 (intEnc n)
  | .vstr s => Nat.pair 4 (strEnc s)
  | .vdate ms => Nat.pair 5 (intEnc ms)
  | .varr items => Nat.pair 6 (encL items)
  | .vobj fields => Nat.pair 7 (encF fields)

/-- Injective encoding of an array of values. -/
def encL : ValueList → Nat
  | .nil => 0
  | .cons v tl => Nat.pair (encV v) (encL tl) + 1

/-- Injective encoding of an object's fields. -/
def encF : ObjFields → Nat
  | .nil => 0
  | .cons k v tl => Nat.pair (strEnc k) (Nat.pair (encV v) (encF tl)) + 1
end

mutual
theorem encV_inj : ∀ v w : Value, encV v = encV w → v = w
  | .vnull, w, h => by
    cases w <;> simp_all [encV, Nat.pair_eq_pair]
  | .vundef, w, h => by
    cases w <;> simp_all [encV, Nat.pair_eq_pair]
  | .vbool b, w, h => by
    cases w <;> simp_all [encV, Nat.pair_eq_pair]
    rename_i b'
    cases b <;> cases b' <;> simp_all
  | .vnum n, w, h => by
    cases w <;> simp_all [encV, Nat.pair_eq_pair]
    exact intEnc_inj _ _ h
  | .vstr s, w, h => by
    cases w <;> simp_all [encV, Nat.pair_eq_pair]
    exact strEnc_inj _ _ h
  | .vdate ms, w, h => by
    cases w <;> simp_all [encV, Nat.pair_eq_pair]
    exact intEnc_inj _ _ h
  | .varr items, w, h => by
    cases w <;> simp_all [encV, Nat.pair_eq_pair]
    rename_i items'
    exact encL_inj items items' h
  | .vobj fields, w, h => by
    cases w <;> simp_all [encV, Nat.pair_eq_pair]
    rename_i fields'
    exact encF_inj fields fields' h

theorem encL_inj : ∀ l l' : ValueList, encL l = encL l' → l = l'
  | .nil, .nil, _ => rfl
  | .nil, .cons _ _, h => by simp [encL] at h
  | .cons _ _, .nil, h => by simp [encL] at h
  | .cons v tl, .cons v' tl', h => by
    simp only [encL, Nat.add_right_cancel_iff, Nat.pair_eq_pair] at h
    rw [encV_inj v v' h.1, encL_inj tl tl' h.2]

theorem encF_inj : ∀ f f' : ObjFields, encF f = encF f' → f = f'
  | .nil, .nil, _ => rfl
  | .nil, .cons _ _ _, h => by simp [encF] at h
  | .cons _ _ _, .nil, h => by simp [encF] at h
  | .cons k v tl, .cons k' v' tl', h => by
    simp only [encF, Nat.add_right_cancel_iff, Nat.pair_eq_pair] at h
    rw [strEnc_inj k k' h.1, encV_inj v v' h.2.1, encF_inj tl tl' h.2.2]
end

theorem natBits_inj : Function.Injective natBits :=
  Function.LeftInverse.injective bitsVal_natBits

/-- Modelled from the spec: `JSON.stringify` applied to a payload before
hashing — "a stable object hash (sort keys, well-defined encoding)".  The
built-in is modelled as an injective rendering of the payload value. -/
def jsonStringify (v : Value) : Str := natBits (encV v)

theorem jsonStringify_inj : ∀ v w : Value, jsonStringify v = jsonStringify w → v = w := by
  intro v w h
  exact encV_inj v w (natBits_inj h)

/-- Combined encoding of the hash input
`{ m: { t, c, s, p, u }, salt }` of `sign.ts`. -/
def hashInputEnc (t : MessageType) (c : Nat) (s pStr u salt : Str) : Nat :=
  Nat.pair (typeCode t)
    (Nat.pair c
      (Nat.pair (strEnc s)
        (Nat.pair (strEnc pStr)
          (Nat.pair (strEnc u) (strEnc salt)))))

/-- Modelled from the spec: the `object-hash` package — "a stable object
hash ... any deterministic cryptographic/structural hash that produces the
same digest for the same inputs".  Modelled as an injective (collision-free)
rendering: a fixed 48-character pad followed by the binary rendering of the
encoded input.  The digest therefore never contains `':'` and always has at
least 48 characters, as a real hex digest does. -/
def objectHash (t : MessageType) (c : Nat) (s pStr u salt : Str) : Str :=
  List.replicate 48 '#' ++ natBits (hashInputEnc t c s pStr u salt)

theorem objectHash_inj
    (t t' : MessageType) (c c' : Nat) (s s' pStr pStr' u u' salt salt' : Str)
    (h : objectHash t c s pStr u salt = objectHash t' c' s' pStr' u' salt') :
    t = t' ∧ c = c' ∧ s = s' ∧ pStr = pStr' ∧ u = u' ∧ salt = salt' := by
  unfold objectHash at h
  have h2 := natBits_inj (List.append_cancel_left h)
  unfold hashInputEnc at h2
  simp only [Nat.pair_eq_pair] at h2
  obtain ⟨h1, h2, h3, h4, h5, h6⟩ := h2
  exact ⟨typeCode_inj _ _ h1, h2, strEnc_inj _ _ h3, strEnc_inj _ _ h4,
    strEnc_inj _ _ h5, strEnc_inj _ _ h6⟩

theorem objectHash_length (t : MessageType) (c : Nat) (s pStr u salt : Str) :
    48 ≤ (objectHash t c s pStr u salt).length := by
  simp [objectHash]

theorem objectHash_no_colon (t : MessageType) (c : Nat) (s pStr u salt : Str) :
    ':' ∉ objectHash t c s pStr u salt := by
  unfold objectHash
  intro hmem
  rcases List.mem_append.mp hmem with hmem | hmem
  · have := List.eq_of_mem_replicate hmem
    simp at this
  · rcases natBits_mem _ _ hmem with h | h <;> simp at h

/-! ### Message signing, from `sign.ts`

The current implementation (`hashMessage` / `signMessage` / `verifyMessage`
with a random nonce) — the nonce `u`, produced in the source from a uuid
with dashes removed (32 hex characters), is passed explicitly since
randomness has no shallow embedding. -/

/-- A wire message: type tag `t`, conversation number `c`, source `s`,
payload `p`, optional signature `z` (from `MessageTransport.ts`). -/
structure Msg where
  t : MessageType
  c : Nat
  s : Str
  p : Value
  z : Option Str
deriving DecidableEq, Repr

/-- The `hashMessage` helper of `sign.ts`:
`hash({ m: { t, c, s, p: JSON.stringify(p), u }, salt })`.  Only the four
named fields, the nonce and the salt enter the hash; `z` is never read. -/
def hashMessage (m : Msg) (u salt : Str) : Str :=
  objectHash m.t m.c m.s (jsonStringify m.p) u salt

/-- The `signMessage` function of `sign.ts`:
`{ ...message, z: [u, hashMessage(message, u, salt)].join(":") }`. -/
def signMessage (m : Msg) (u salt : Str) : Msg :=
  { m with z := some (u ++ ':' :: hashMessage m u salt) }

/-- JavaScript `z.split(":")`. -/
def splitColon : Str → List Str
  | [] => [[]]
  | c :: rest =>
    if c = ':' then [] :: splitColon rest
    else
      match splitColon rest with
      | g :: gs => (c :: g) :: gs
      | [] => [[c]]

/-- The `verifyMessage` function of `sign.ts`: strip `z`, split it on
`':'` into nonce and digest, recompute the digest of the `z`-less message
with the received nonce (`u ?? ""`), and fail unless the received digest
equals the recomputed one.  Failure (`throw new Error`) is modelled as
`Except.error`. -/
def verifyMessage (m : Msg) (salt : Str) : Except Unit Msg :=
  let zLess : Msg := { m with z := none }
  let parts : List Str :=
    match m.z with
    | some z => splitColon z
    | none => []
  let u : Str := parts[0]?.getD []
  let hRecv : Option Str := parts[1]?
  if hRecv = some (hashMessage zLess u salt) then .ok m else .error ()

theorem splitColon_ne_nil : ∀ s : Str, splitColon s ≠ []
  | [] => by simp [splitColon]
  | c :: rest => by
    unfold splitColon
    split
    · simp
    · cases h : splitColon rest <;> simp

theorem splitColon_no_colon : ∀ s : Str, ':' ∉ s → splitColon s = [s]
  | [], _ => rfl
  | c :: rest, h => by
    have hc : ¬c = ':' := fun hc => h (by simp [hc])
    have hr : ':' ∉ rest := fun hr => h (List.mem_cons_of_mem _ hr)
    unfold splitColon
    rw [if_neg hc, splitColon_no_colon rest hr]

theorem splitColon_cons (c : Char) (rest : Str) :
    splitColon (c :: rest) =
      if c = ':' then [] :: splitColon rest
      else
        match splitColon rest with
        | g :: gs => (c :: g) :: gs
        | [] => [[c]] := by
  conv_lhs => unfold splitColon

theorem splitColon_append : ∀ xs ys : Str, ':' ∉ xs →
    splitColon (xs ++ ':' :: ys) = xs :: splitColon ys
  | [], ys, _ => by simp [splitColon]
  | x :: xs, ys, h => by
    have hc : ¬x = ':' := fun hc => h (by simp [hc])
    have hr : ':' ∉ xs := fun hr => h (List.mem_cons_of_mem _ hr)
    rw [List.cons_append, splitColon_cons, if_neg hc, splitColon_append xs ys hr]

/-- Signing as gated by `MessageConnection.signMessage`: a message is signed
iff the connection's `signSalt` is set (a non-empty string is truthy). -/
def connSign (salt : Str) (m : Msg) (u : Str) : Msg :=
  if salt.isEmpty then m else signMessage m u salt

/-- C4: a message signed with a non-empty salt carries
`z = "<nonce>:<hash>"`, where the hash is `objectHash` applied to exactly
the type tag, conversation number, source, stringified payload, nonce and
salt; the hash never reads the `z` field, so any two messages agreeing on
`t`, `c`, `s` and `p` (whatever their `z`) hash identically. -/
theorem signed_z_shape_and_hash_inputs (m : Msg) (u salt : Str) (hsalt : salt ≠ []) :
    (connSign salt m u).z = some (u ++ ':' :: hashMessage m u salt)
    ∧ hashMessage m u salt = objectHash m.t m.c m.s (jsonStringify m.p) u salt
    ∧ (∀ m' : Msg, m'.t = m.t → m'.c = m.c → m'.s = m.s → m'.p = m.p →
        hashMessage m' u salt = hashMessage m u salt) := by
  refine ⟨?_, rfl, ?_⟩
  · have : ¬salt.isEmpty := by
      cases salt with
      | nil => exact absurd rfl hsalt
      | cons a l => simp
    simp [connSign, this, signMessage]
  · intro m' h1 h2 h3 h4
    simp [hashMessage, h1, h2, h3, h4]

/-- Witness for C4 at a concrete message, nonce and salt. -/
theorem signed_z_shape_and_hash_inputs_witness :
    (['s'] : Str) ≠ []
    ∧ ((connSign ['s'] ⟨.request, 1, ['A'], .vnum 7, none⟩ ['u']).z
        = some (['u'] ++ ':' :: hashMessage ⟨.request, 1, ['A'], .vnum 7, none⟩ ['u'] ['s'])
      ∧ hashMessage ⟨.request, 1, ['A'], .vnum 7, none⟩ ['u'] ['s']
        = objectHash .request 1 ['A'] (jsonStringify (.vnum 7)) ['u'] ['s']
      ∧ (∀ m' : Msg, m'.t = .request → m'.c = 1 → m'.s = ['A'] → m'.p = .vnum 7 →
          hashMessage m' ['u'] ['s'] = hashMessage ⟨.request, 1, ['A'], .vnum 7, none⟩ ['u'] ['s'])) :=
  ⟨by decide, signed_z_shape_and_hash_inputs ⟨.request, 1, ['A'], .vnum 7, none⟩ ['u'] ['s'] (by decide)⟩

theorem hashMessage_z_irrel (m : Msg) (w : Option Str) (u salt : Str) :
    hashMessage { m with z := w } u salt = hashMessage m u salt := rfl

theorem ne_of_length_ne {a b : Str} (h : a.length ≠ b.length) : a ≠ b := by
  intro hab
  exact h (by rw [hab])

/-- Evaluating `verifyMessage` once the `z` field is known. -/
theorem verifyMessage_z (m : Msg) (salt zz : Str) (hz : m.z = some zz) :
    verifyMessage m salt =
      if (splitColon zz)[1]?
          = some (hashMessage { m with z := none } ((splitColon zz)[0]?.getD []) salt)
        then .ok m else .error () := by
  simp only [verifyMessage, hz]

theorem hashMessage_no_colon (m : Msg) (u salt : Str) : ':' ∉ hashMessage m u salt :=
  objectHash_no_colon _ _ _ _ _ _

theorem hashMessage_length (m : Msg) (u salt : Str) : 48 ≤ (hashMessage m u salt).length :=
  objectHash_length _ _ _ _ _ _

/-- Successful verification of a freshly signed message. -/
theorem verify_signed_ok (m : Msg) (u salt : Str) (hcol : ':' ∉ u) :
    verifyMessage (signMessage m u salt) salt = .ok (signMessage m u salt) := by
  rw [verifyMessage_z (signMessage m u salt) salt (u ++ ':' :: hashMessage m u salt) rfl]
  rw [splitColon_append u _ hcol,
    splitColon_no_colon _ (hashMessage_no_colon m u salt)]
  simp only [List.getElem?_cons_zero, List.getElem?_cons_succ, Option.getD_some]
  rw [if_pos]
  congr 1

/-- Verification fails whenever the carried digest was computed from
different hash inputs than the received message's fields. -/
theorem verify_mut_fails (m : Msg) (u salt : Str) (hcol : ':' ∉ u)
    (mm : Msg) (hz : mm.z = some (u ++ ':' :: hashMessage m u salt))
    (hne : objectHash mm.t mm.c mm.s (jsonStringify mm.p) u salt ≠ hashMessage m u salt) :
    verifyMessage mm salt = .error () := by
  rw [verifyMessage_z mm salt _ hz, splitColon_append u _ hcol,
    splitColon_no_colon _ (hashMessage_no_colon m u salt)]
  simp only [List.getElem?_cons_zero, List.getElem?_cons_succ, Option.getD_some]
  rw [if_neg]
  intro h
  injection h with h
  exact hne h.symm

/-- Verification fails after any single-character substitution inside the
`z` field of a signed message (the nonce is 32 characters and colon-free,
as the hex-rendered uuid of the source is). -/
theorem verify_z_mut_fails (m : Msg) (u salt : Str)
    (hlen : u.length = 32) (hcol : ':' ∉ u) (i : Nat) (ch : Char)
    (hi : i < (u ++ ':' :: hashMessage m u salt).length)
    (hch : (u ++ ':' :: hashMessage m u salt)[i]? ≠ some ch) :
    verifyMessage
      { signMessage m u salt with
        z := some ((u ++ ':' :: hashMessage m u salt).set i ch) } salt
      = .error () := by
  set hM := hashMessage m u salt with hMdef
  have hMcol : ':' ∉ hM := hashMessage_no_colon m u salt
  have hM48 : 48 ≤ hM.length := hashMessage_length m u salt
  have hrec : ∀ x : Str,
      hashMessage
        { { signMessage m u salt with
            z := some ((u ++ ':' :: hM).set i ch) } with z := none } x salt
      = objectHash m.t m.c m.s (jsonStringify m.p) x salt := fun _ => rfl
  have hMo : hM = objectHash m.t m.c m.s (jsonStringify m.p) u salt := rfl
  rw [verifyMessage_z _ salt ((u ++ ':' :: hM).set i ch) rfl]
  rcases Nat.lt_trichotomy i 32 with hi32 | hi32 | hi32
  · -- the substitution falls inside the nonce
    have hiu : i < u.length := by omega
    have hold : (u ++ ':' :: hM)[i]? = u[i]? := List.getElem?_append_left hiu
    by_cases hcc : ch = ':'
    · subst hcc
      have htake : u.set i ':' = u.take i ++ ':' :: u.drop (i + 1) := by
        rw [List.set_eq_take_append_cons_drop, if_pos hiu]
      have htakecol : ':' ∉ u.take i := fun hm => hcol (List.mem_of_mem_take hm)
      have hdropcol : ':' ∉ u.drop (i + 1) := fun hm => hcol (List.mem_of_mem_drop hm)
      rw [List.set_append_left _ _ hiu, htake]
      have hassoc : (u.take i ++ ':' :: u.drop (i + 1)) ++ ':' :: hM
          = u.take i ++ ':' :: (u.drop (i + 1) ++ ':' :: hM) := by
        simp
      rw [hassoc, splitColon_append _ _ htakecol, splitColon_append _ _ hdropcol]
      simp only [List.getElem?_cons_zero, List.getElem?_cons_succ, Option.getD_some]
      rw [if_neg]
      intro hcond
      injection hcond with hcond
      have hlen1 : (u.drop (i + 1)).length = 32 - (i + 1) := by
        rw [List.length_drop, hlen]
      have hlen2 : 48 ≤ (objectHash m.t m.c m.s (jsonStringify m.p) (u.take i) salt).length :=
        objectHash_length _ _ _ _ _ _
      exact ne_of_length_ne (by rw [hrec] at hcond ⊢; omega) hcond
    · have hsetcol : ':' ∉ u.set i ch := by
        intro hm
        rcases List.mem_or_eq_of_mem_set hm with hm | hm
        · exact hcol hm
        · exact hcc hm.symm
      rw [List.set_append_left _ _ hiu, splitColon_append _ _ hsetcol,
        splitColon_no_colon _ hMcol]
      simp only [List.getElem?_cons_zero, List.getElem?_cons_succ, Option.getD_some]
      rw [if_neg]
      intro hcond
      injection hcond with hcond
      rw [hrec, hMo] at hcond
      have hu' : u.set i ch = u :=
        ((objectHash_inj _ _ _ _ _ _ _ _ _ _ _ _ hcond).2.2.2.2.1).symm
      have : u[i]? = some ch := by
        rw [← hu', List.getElem?_set_eq_of_lt _ hiu]
      rw [hold] at hch
      exact hch this
  · -- the substitution hits the separating colon
    subst hi32
    have hle : u.length ≤ 32 := by omega
    have hcc : ch ≠ ':' := by
      intro hcc
      subst hcc
      apply hch
      rw [List.getElem?_append_right hle, hlen]
      simp
    rw [List.set_append_right _ _ hle, hlen]
    have h0 : (32 : Nat) - 32 = 0 := by omega
    rw [h0]
    have hz' : (':' :: hM).set 0 ch = ch :: hM := rfl
    rw [hz']
    have hfree : ':' ∉ u ++ ch :: hM := by
      intro hm
      rcases List.mem_append.mp hm with hm | hm
      · exact hcol hm
      · rcases List.mem_cons.mp hm with hm | hm
        · exact hcc hm.symm
        · exact hMcol hm
    rw [splitColon_no_colon _ hfree]
    simp
  · -- the substitution falls inside the digest
    have hj : i - 33 < hM.length := by
      have : (u ++ ':' :: hM).length = 33 + hM.length := by
        simp [hlen]
        omega
      omega
    have hle : u.length ≤ i := by omega
    have hstep : i - 32 = (i - 33) + 1 := by omega
    have hold : (u ++ ':' :: hM)[i]? = hM[i - 33]? := by
      rw [List.getElem?_append_right hle, hlen, hstep]
      simp
    rw [List.set_append_right _ _ hle, hlen, hstep]
    have hz' : (':' :: hM).set ((i - 33) + 1) ch = ':' :: hM.set (i - 33) ch := rfl
    rw [hz']
    by_cases hcc : ch = ':'
    · subst hcc
      have htake : hM.set (i - 33) ':' = hM.take (i - 33) ++ ':' :: hM.drop (i - 33 + 1) := by
        rw [List.set_eq_take_append_cons_drop, if_pos hj]
      have htakecol : ':' ∉ hM.take (i - 33) := fun hm => hMcol (List.mem_of_mem_take hm)
      rw [htake, splitColon_append _ _ hcol, splitColon_append _ _ htakecol]
      simp only [List.getElem?_cons_zero, List.getElem?_cons_succ, Option.getD_some]
      rw [if_neg]
      intro hcond
      injection hcond with hcond
      have hlen1 : (hM.take (i - 33)).length = i - 33 := by
        rw [List.length_take]
        omega
      have hlen2 : (objectHash m.t m.c m.s (jsonStringify m.p) u salt).length = hM.length := by
        rw [← hMo]
      exact ne_of_length_ne (by rw [hrec] at hcond ⊢; omega) hcond
    · have hsetcol : ':' ∉ hM.set (i - 33) ch := by
        intro hm
        rcases List.mem_or_eq_of_mem_set hm with hm | hm
        · exact hMcol hm
        · exact hcc hm.symm
      rw [splitColon_append _ _ hcol, splitColon_no_colon _ hsetcol]
      simp only [List.getElem?_cons_zero, List.getElem?_cons_succ, Option.getD_some]
      rw [if_neg]
      intro hcond
      injection hcond with hcond
      rw [hrec, ← hMo] at hcond
      have : hM[i - 33]? = some ch := by
        rw [← hcond, List.getElem?_set_eq_of_lt _ hj]
      rw [hold] at hch
      exact hch this

/-- C6: for every message and salt (the nonce being the 32-character
colon-free hex uuid the source draws), verification of a signed message
succeeds and preserves `t`, `c`, `s`, `p`; and verification fails after any
change of `t`, `c`, `s` or `p`, after dropping `z`, and after any
single-character substitution inside `z`. -/
theorem sign_verify_roundtrip_and_mutations (m : Msg) (u salt : Str)
    (hlen : u.length = 32) (hcol : ':' ∉ u) :
    (verifyMessage (signMessage m u salt) salt = .ok (signMessage m u salt)
      ∧ (signMessage m u salt).t = m.t ∧ (signMessage m u salt).c = m.c
      ∧ (signMessage m u salt).s = m.s ∧ (signMessage m u salt).p = m.p)
    ∧ (∀ t' : MessageType, t' ≠ m.t →
        verifyMessage { signMessage m u salt with t := t' } salt = .error ())
    ∧ (∀ c' : Nat, c' ≠ m.c →
        verifyMessage { signMessage m u salt with c := c' } salt = .error ())
    ∧ (∀ s' : Str, s' ≠ m.s →
        verifyMessage { signMessage m u salt with s := s' } salt = .error ())
    ∧ (∀ p' : Value, p' ≠ m.p →
        verifyMessage { signMessage m u salt with p := p' } salt = .error ())
    ∧ verifyMessage { signMessage m u salt with z := none } salt = .error ()
    ∧ (∀ (i : Nat) (ch : Char), i < (u ++ ':' :: hashMessage m u salt).length →
        (u ++ ':' :: hashMessage m u salt)[i]? ≠ some ch →
        verifyMessage { signMessage m u salt with
          z := some ((u ++ ':' :: hashMessage m u salt).set i ch) } salt = .error ()) := by
  refine ⟨⟨verify_signed_ok m u salt hcol, rfl, rfl, rfl, rfl⟩, ?_, ?_, ?_, ?_, ?_, ?_⟩
  · intro t' ht
    refine verify_mut_fails m u salt hcol _ rfl ?_
    intro h
    exact ht (objectHash_inj _ _ _ _ _ _ _ _ _ _ _ _ h).1
  · intro c' hc
    refine verify_mut_fails m u salt hcol _ rfl ?_
    intro h
    exact hc (objectHash_inj _ _ _ _ _ _ _ _ _ _ _ _ h).2.1
  · intro s' hs
    refine verify_mut_fails m u salt hcol _ rfl ?_
    intro h
    exact hs (objectHash_inj _ _ _ _ _ _ _ _ _ _ _ _ h).2.2.1
  · intro p' hp
    refine verify_mut_fails m u salt hcol _ rfl ?_
    intro h
    exact hp (jsonStringify_inj _ _ (objectHash_inj _ _ _ _ _ _ _ _ _ _ _ _ h).2.2.2.1)
  · simp [verifyMessage]
  · intro i ch hi hch
    exact verify_z_mut_fails m u salt hlen hcol i ch hi hch

/-- Concrete message for the C6 witness. -/
def mC6 : Msg := ⟨.request, 1, ['A'], .vnum 7, none⟩

/-- Concrete 32-character colon-free nonce for the C6 witness. -/
def uC6 : Str := List.replicate 32 'a'

/-- Concrete salt for the C6 witness. -/
def saltC6 : Str := ['s']

/-- Witness for C6 at a concrete message, nonce and salt. -/
theorem sign_verify_roundtrip_and_mutations_witness :
    (uC6.length = 32 ∧ ':' ∉ uC6)
    ∧ ((verifyMessage (signMessage mC6 uC6 saltC6) saltC6 = .ok (signMessage mC6 uC6 saltC6)
        ∧ (signMessage mC6 uC6 saltC6).t = mC6.t ∧ (signMessage mC6 uC6 saltC6).c = mC6.c
        ∧ (signMessage mC6 uC6 saltC6).s = mC6.s ∧ (signMessage mC6 uC6 saltC6).p = mC6.p)
      ∧ (∀ t' : MessageType, t' ≠ mC6.t →
          verifyMessage { signMessage mC6 uC6 saltC6 with t := t' } saltC6 = .error ())
      ∧ (∀ c' : Nat, c' ≠ mC6.c →
          verifyMessage { signMessage mC6 uC6 saltC6 with c := c' } saltC6 = .error ())
      ∧ (∀ s' : Str, s' ≠ mC6.s →
          verifyMessage { signMessage mC6 uC6 saltC6 with s := s' } saltC6 = .error ())
      ∧ (∀ p' : Value, p' ≠ mC6.p →
          verifyMessage { signMessage mC6 uC6 saltC6 with p := p' } saltC6 = .error ())
      ∧ verifyMessage { signMessage mC6 uC6 saltC6 with z := none } saltC6 = .error ()
      ∧ (∀ (i : Nat) (ch : Char), i < (uC6 ++ ':' :: hashMessage mC6 uC6 saltC6).length →
          (uC6 ++ ':' :: hashMessage mC6 uC6 saltC6)[i]? ≠ some ch →
          verifyMessage { signMessage mC6 uC6 saltC6 with
            z := some ((uC6 ++ ':' :: hashMessage mC6 uC6 saltC6).set i ch) } saltC6
            = .error ())) :=
  ⟨⟨by decide, by decide⟩,
    sign_verify_roundtrip_and_mutations mC6 uC6 saltC6 (by decide) (by decide)⟩

/-! ### Claim C5 — the codec round-trip -/

/-- C5 counterexample: the round-trip is not the identity on all strings.
A plain string that happens to end in the `"@@@D"` suffix — here `"a@@@D"` —
passes through `annotate` unchanged, but `deannotate` matches it against
`DATE_RE` and turns it into a `Date`, so the original value is lost. -/
theorem codec_roundtrip_counterexample :
    deannotate (annotate (Value.vstr ['a', '@', '@', '@', 'D']))
      ≠ Value.vstr ['a', '@', '@', '@', 'D'] := by
  decide

/-- C5 (amended): `deannotate (annotate x) = x` for every value composed of
strings, numbers, booleans, `null`, `undefined`, dates, arrays and objects,
provided no string leaf in `x` itself ends with the `"@@@D"` date suffix
(ISO-8601-looking strings are fine: they come back as strings, and dates
come back as equal dates). -/
theorem codec_roundtrip_amended (v : Value) (h : goodVal v = true) :
    deannotate (annotate v) = v :=
  deannotate_annotate v h

/-- Concrete value for the C5 witness: an object with a date, an
ISO-8601-looking string, a number, a boolean, `null`, `undefined`, and a
nested array. -/
def vC5 : Value :=
  .vobj (.cons ['d'] (.vdate 1704164645000)
    (.cons ['i'] (.vstr ['2', '0', '2', '4', '-', '0', '1', '-', '0', '2', 'T',
      '0', '3', ':', '0', '4', ':', '0', '5', '.', '0', '0', '0', 'Z'])
      (.cons ['n'] (.vnum 42)
        (.cons ['b'] (.vbool true)
          (.cons ['x'] .vnull
            (.cons ['u'] .vundef
              (.cons ['a'] (.varr (.cons (.vstr ['h', 'i']) (.cons (.vdate (-3)) .nil)))
                .nil)))))))

/-- Witness for the amended C5 round-trip at a concrete value. -/
theorem codec_roundtrip_amended_witness :
    goodVal vC5 = true ∧ deannotate (annotate vC5) = vC5 :=
  ⟨by decide, codec_roundtrip_amended vC5 (by decide)⟩

/-! ### MessageConnection, from `MessageConnection.ts`

The responder dispatch `handleRequest`, the requester dispatch `doRequest`
(its bookkeeping of the `responseQueues` map and its handling of the first
response), and the streamed-response consumption loop of the `multi`
branch. -/

/-- The payload string of an `end` message: the literal `"END"`. -/
def endChars : Str := ['E', 'N', 'D']

/-- The `message` key of error/anomaly payloads. -/
def msgKey : Str := ['m', 'e', 's', 's', 'a', 'g', 'e']

/-- The `info` key of anomaly payloads. -/
def infoKey : Str := ['i', 'n', 'f', 'o']

/-- The `requestPayload` key of error/anomaly payloads. -/
def reqKey : Str := ['r', 'e', 'q', 'u', 'e', 's', 't', 'P', 'a', 'y', 'l', 'o', 'a', 'd']

/-- The message text of the `TypeError` raised by reading
`Symbol.asyncIterator` off `null` (`typeof null === 'object'`, so a `null`
handler result reaches the property access in the stream test and throws
inside the `try`). The exact JavaScript wording is irrelevant; only the fact
that it is a non-`Anomaly` error matters. -/
def nullIterErr : Str := ['T', 'y', 'p', 'e', 'E', 'r', 'r', 'o', 'r']

/-- What the application handler (`onReceive`) did: returned an async
iterator yielding the given items, returned a plain value, returned nothing
(`undefined`), or threw. -/
inductive HandlerOutcome where
  | stream (items : List Value)
  | value (v : Value)
  | nothing
  | throwAnomaly (emsg : Str) (info : Value)
  | throwError (emsg : Str)
deriving DecidableEq, Repr

/-- The responder dispatch of `MessageConnection.handleRequest`: the list of
response messages handed to `respond` (before marshalling/signing) for a
request with conversation number `reqC` and payload `reqP`, handled by a
connection with source id `src`.

Faithful to the source:
* an async-iterator result sends each yielded item as `multi` and then an
  `end` with payload `'END'`;
* a `null` result passes `typeof result === 'object'` and then throws a
  `TypeError` on the `Symbol.asyncIterator` read, which the `catch` turns
  into an `error` message;
* any other truthy result (`else if (result)`) sends one `response`;
* any other falsy result (`0`, `''`, `false`, `undefined`) sends nothing;
* a thrown `Anomaly` sends an `anomaly` message, any other throw an `error`
  message, both carrying the request payload. -/
def handleRequest (src : Str) (reqC : Nat) (reqP : Value) (result : HandlerOutcome) :
    List Msg :=
  match result with
  | .stream items =>
    items.map (fun p => ⟨.multi, reqC, src, p, none⟩)
      ++ [⟨.end_, reqC, src, .vstr endChars, none⟩]
  | .value v =>
    if v = .vnull then
      [⟨.error, reqC, src,
        .vobj (.cons msgKey (.vstr nullIterErr) (.cons reqKey reqP .nil)), none⟩]
    else if jsTruthy v then
      [⟨.response, reqC, src, v, none⟩]
    else []
  | .nothing => []
  | .throwAnomaly emsg info =>
    [⟨.anomaly, reqC, src,
      .vobj (.cons msgKey (.vstr emsg) (.cons infoKey info (.cons reqKey reqP .nil))), none⟩]
  | .throwError emsg =>
    [⟨.error, reqC, src,
      .vobj (.cons msgKey (.vstr emsg) (.cons reqKey reqP .nil)), none⟩]

/-- Requester-side classification of the first message read from the
conversation queue (`doRequest`): a `multi` opens a stream pinned to the
first source, `anomaly`/`error` are rethrown by `possiblyThrow`, and
anything else (`response`, `end`) is returned as the single result
payload. -/
inductive ReqOutcome where
  | single (p : Value)
  | streaming (firstP : Value) (firstS : Str)
  | threw (t : MessageType) (p : Value)
deriving DecidableEq, Repr

/-- Classify the first inbound response, as `doRequest` does. -/
def requesterFirst (firstMsg : Msg) : ReqOutcome :=
  match firstMsg.t with
  | .multi => .streaming firstMsg.p firstMsg.s
  | .anomaly => .threw .anomaly firstMsg.p
  | .error => .threw .error firstMsg.p
  | _ => .single firstMsg.p

/-- Modelled from the spec: a read on the deadline queue (`AsyncQueue` of
`@phnq/streams`, an external package) either returns the next message or
fails with `TimeoutError` after `maxWaitTime = responseTimeout`.  The
outcome of the first `iter.next()` is passed to the model explicitly. -/
inductive FirstRead where
  | msg (m : Msg)
  | timeout
deriving DecidableEq, Repr

/-- Result of `doRequest` with `expectResponse = true`, as observed by the
caller of `request` / `requestOne`. -/
inductive DoRequestResult where
  | timedOut
  | streaming (firstP : Value) (firstS : Str)
  | threw (t : MessageType) (p : Value)
  | single (p : Value)
deriving DecidableEq, Repr

/-- The `responseQueues` bookkeeping of `doRequest` (`expectResponse` path),
with the map modelled by its key set: the queue for `reqId` is registered
before the request is sent; then the first read either
* fails with `TimeoutError`, which propagates to the caller — no statement
  in `doRequest` deletes the queue on this path;
* returns a `multi`, opening a stream (the queue is deleted later, by the
  generator's `finally`, not here); or
* returns a terminal message, in which case `responseQueues.delete(reqId)`
  runs before `possiblyThrow` / `return`. -/
def doRequestExpectResponse (queues : List Nat) (reqId : Nat) (fr : FirstRead) :
    List Nat × DoRequestResult :=
  let queues1 := reqId :: queues
  match fr with
  | .timeout => (queues1, .timedOut)
  | .msg m =>
    match requesterFirst m with
    | .streaming p s => (queues1, .streaming p s)
    | .threw t p => (queues1.erase reqId, .threw t p)
    | .single p => (queues1.erase reqId, .single p)

/-- The requester's `requestOne` post-processing of a `request` result: a
stream is drained and its first element kept, a plain value is returned
as-is, and timeouts / rethrown failures propagate (`none`). -/
def requestOneOf : DoRequestResult → Option Value
  | .single p => some p
  | .streaming firstP _ => some firstP
  | .timedOut => none
  | .threw _ _ => none

/-- Possible terminations of the requester's streamed-response loop. -/
inductive StreamTermination where
  | ended
  | threwMsg (t : MessageType) (p : Value)
  | pending
deriving DecidableEq, Repr

/-- The streamed-response consumption loop of `doRequest`'s `multi` branch,
run against the list of response messages that arrive for this conversation
after the pinned first response, in arrival order.  Combines the transport
dispatch (terminal types — `response`, `anomaly`, `error`, `end` — are
enqueued and flush the queue; `multi` is only enqueued; a `request` never
reaches the queue) with the generator body (messages whose `s` differs from
the pinned `firstS` are skipped with a warning; matching `anomaly`/`error`
throw; matching `multi` yields its payload; the loop ends once the flushed
queue is drained).  Returns the yielded payloads and how the loop ended;
`pending` means no terminal message arrived, so the loop is still waiting on
the queue. -/
def streamLoop (firstS : Str) : List Msg → List Value × StreamTermination
  | [] => ([], .pending)
  | m :: rest =>
    match m.t with
    | .request => streamLoop firstS rest
    | .multi =>
      if m.s = firstS then
        ((streamLoop firstS rest).1.cons m.p, (streamLoop firstS rest).2)
      else streamLoop firstS rest
    | .response => ([], .ended)
    | .end_ => ([], .ended)
    | .anomaly => if m.s = firstS then ([], .threwMsg .anomaly m.p) else ([], .ended)
    | .error => if m.s = firstS then ([], .threwMsg .error m.p) else ([], .ended)

/-! ### Claim C1 — timeout on the first response -/

/-- C1: when the responder never answers within `responseTimeout`, the first
queue read fails with `TimeoutError`, which propagates out of `doRequest`
(result `timedOut`, so `request`/`requestOne` raise `TimeoutError`) — but the
conversation queue is still registered afterwards: starting from an empty
`responseQueues` map, conversation `1` remains registered (`[1]`), because no
statement on this path deletes it.  This refutes the claim's "the queue is
removed even when the very first read times out". -/
theorem timeout_leaves_queue_registered :
    doRequestExpectResponse [] 1 .timeout = ([1], .timedOut)
    ∧ requestOneOf .timedOut = none := by
  constructor <;> rfl

/-! ### Claim C2 — falsy non-undefined handler results -/

/-- C2: evaluation of the responder dispatch at falsy handler results.  A
handler returning `0`, `''` or `false` produces no response message at all
(`else if (result)` fails), and a handler returning `null` produces a single
`error` message (the `Symbol.asyncIterator` read on `null` throws a
`TypeError` inside the `try`); none of them produces the single `response`
message the claim requires. -/
theorem falsy_result_sends_no_response (src : Str) (reqC : Nat) (reqP : Value) :
    handleRequest src reqC reqP (.value (.vnum 0)) = []
    ∧ handleRequest src reqC reqP (.value (.vstr [])) = []
    ∧ handleRequest src reqC reqP (.value (.vbool false)) = []
    ∧ handleRequest src reqC reqP (.value .vnull)
      = [⟨.error, reqC, src,
          .vobj (.cons msgKey (.vstr nullIterErr) (.cons reqKey reqP .nil)), none⟩]
    ∧ handleRequest src reqC reqP .nothing = [] := by
  refine ⟨rfl, rfl, rfl, rfl, rfl⟩

/-! ### Claim C9 — a zero-item stream answers with the end message -/

/-- C9: when the handler returns a stream yielding zero items, the responder
sends exactly one message — the `end` with payload `"END"`; on the requester
side the first (and only) response is that `end`, which the non-`multi`
branch of `doRequest` treats as a single response: the queue is deleted and
the payload — the literal string `"END"` — is returned, so `requestOne`
yields `"END"` rather than an empty sequence or `undefined`. -/
theorem empty_stream_returns_end_payload (src : Str) (reqC : Nat) (reqP : Value) :
    handleRequest src reqC reqP (.stream [])
      = [⟨.end_, reqC, src, .vstr endChars, none⟩]
    ∧ doRequestExpectResponse [] reqC (.msg ⟨.end_, reqC, src, .vstr endChars, none⟩)
      = ([], .single (.vstr endChars))
    ∧ requestOneOf (.single (.vstr endChars)) = some (.vstr endChars) := by
  refine ⟨rfl, ?_, rfl⟩
  simp [doRequestExpectResponse, requesterFirst]

/-! ### Claim C8 — source pinning in streams -/

/-- C8 counterexample: a response from a divergent source can terminate the
stream.  With the stream pinned to source `"B"`, an `end` message from
source `"C"` is skipped by the generator (not yielded, no throw) — but the
transport dispatch flushes the queue for every terminal type regardless of
source, so the loop ends (`ended`); had the divergent message not arrived,
the loop would still be waiting (`pending`).  The divergent-source message
therefore influences the stream, refuting "do not terminate the
sequence". -/
theorem source_pinning_counterexample :
    streamLoop ['B'] [⟨.end_, 5, ['C'], .vstr endChars, none⟩] = ([], .ended)
    ∧ streamLoop ['B'] [] = ([], .pending) := by
  constructor <;> rfl

theorem streamLoop_skip_divergent_multi (firstS : Str) (d : Msg)
    (hd : d.s ≠ firstS) (ht : d.t = .multi) :
    ∀ l₁ l₂ : List Msg, streamLoop firstS (l₁ ++ d :: l₂) = streamLoop firstS (l₁ ++ l₂)
  | [], l₂ => by
    simp [streamLoop, ht, hd]
  | m :: l₁, l₂ => by
    simp only [List.cons_append]
    cases htm : m.t <;>
      simp [streamLoop, htm, streamLoop_skip_divergent_multi firstS d hd ht l₁ l₂]

theorem streamLoop_yields_from_pinned (firstS : Str) :
    ∀ msgs : List Msg, ∀ v ∈ (streamLoop firstS msgs).1,
      ∃ m ∈ msgs, m.s = firstS ∧ m.t = .multi ∧ m.p = v
  | [] => by simp [streamLoop]
  | m :: rest => by
    intro v hv
    cases htm : m.t
    case request =>
      simp only [streamLoop, htm] at hv
      obtain ⟨m', hm', hrest⟩ := streamLoop_yields_from_pinned firstS rest v hv
      exact ⟨m', List.mem_cons_of_mem _ hm', hrest⟩
    case multi =>
      simp only [streamLoop, htm] at hv
      by_cases hs : m.s = firstS
      · rw [if_pos hs] at hv
        rcases List.mem_cons.mp hv with hv | hv
        · exact ⟨m, List.mem_cons_self _ _, hs, htm, hv.symm⟩
        · obtain ⟨m', hm', hrest⟩ := streamLoop_yields_from_pinned firstS rest v hv
          exact ⟨m', List.mem_cons_of_mem _ hm', hrest⟩
      · rw [if_neg hs] at hv
        obtain ⟨m', hm', hrest⟩ := streamLoop_yields_from_pinned firstS rest v hv
        exact ⟨m', List.mem_cons_of_mem _ hm', hrest⟩
    case response =>
      simp [streamLoop, htm] at hv
    case end_ =>
      simp [streamLoop, htm] at hv
    case anomaly =>
      simp only [streamLoop, htm] at hv
      by_cases hs : m.s = firstS
      · rw [if_pos hs] at hv; simp at hv
      · rw [if_neg hs] at hv; simp at hv
    case error =>
      simp only [streamLoop, htm] at hv
      by_cases hs : m.s = firstS
      · rw [if_pos hs] at hv; simp at hv
      · rw [if_neg hs] at hv; simp at hv

theorem streamLoop_throws_from_pinned (firstS : Str) :
    ∀ msgs : List Msg, ∀ t p, (streamLoop firstS msgs).2 = .threwMsg t p →
      ∃ m ∈ msgs, m.s = firstS ∧ m.t = t ∧ m.p = p
  | [] => by simp [streamLoop]
  | m :: rest => by
    intro t p hv
    cases htm : m.t
    case request =>
      simp only [streamLoop, htm] at hv
      obtain ⟨m', hm', hrest⟩ := streamLoop_throws_from_pinned firstS rest t p hv
      exact ⟨m', List.mem_cons_of_mem _ hm', hrest⟩
    case multi =>
      simp only [streamLoop, htm] at hv
      by_cases hs : m.s = firstS
      · rw [if_pos hs] at hv
        obtain ⟨m', hm', hrest⟩ := streamLoop_throws_from_pinned firstS rest t p hv
        exact ⟨m', List.mem_cons_of_mem _ hm', hrest⟩
      · rw [if_neg hs] at hv
        obtain ⟨m', hm', hrest⟩ := streamLoop_throws_from_pinned firstS rest t p hv
        exact ⟨m', List.mem_cons_of_mem _ hm', hrest⟩
    case response =>
      simp [streamLoop, htm] at hv
    case end_ =>
      simp [streamLoop, htm] at hv
    case anomaly =>
      simp only [streamLoop, htm] at hv
      by_cases hs : m.s = firstS
      · rw [if_pos hs] at hv
        simp only [StreamTermination.threwMsg.injEq] at hv
        exact ⟨m, List.mem_cons_self _ _, hs, by rw [htm, hv.1], hv.2⟩
      · rw [if_neg hs] at hv; simp at hv
    case error =>
      simp only [streamLoop, htm] at hv
      by_cases hs : m.s = firstS
      · rw [if_pos hs] at hv
        simp only [StreamTermination.threwMsg.injEq] at hv
        exact ⟨m, List.mem_cons_self _ _, hs, by rw [htm, hv.1], hv.2⟩
      · rw [if_neg hs] at hv; simp at hv

/-- C8 (amended): once the stream is pinned to the first response's source,
divergent-source messages are never yielded and never throw — every yielded
payload and every rethrown failure comes from a message whose `s` equals the
pinned source — and a divergent-source `multi` has no influence at all on
the stream.  (A divergent-source terminal — `end`, `error`, `anomaly`,
`response` — still flushes the conversation queue and thereby ends the
sequence without error, which is the one influence the original claim
denied.) -/
theorem source_pinning_amended (firstS : Str) (msgs : List Msg) :
    (∀ v ∈ (streamLoop firstS msgs).1, ∃ m ∈ msgs, m.s = firstS ∧ m.t = .multi ∧ m.p = v)
    ∧ (∀ t p, (streamLoop firstS msgs).2 = .threwMsg t p →
        ∃ m ∈ msgs, m.s = firstS ∧ m.t = t ∧ m.p = p)
    ∧ (∀ (l₁ l₂ : List Msg) (d : Msg), msgs = l₁ ++ d :: l₂ → d.s ≠ firstS →
        d.t = .multi → streamLoop firstS msgs = streamLoop firstS (l₁ ++ l₂)) := by
  refine ⟨streamLoop_yields_from_pinned firstS msgs,
    streamLoop_throws_from_pinned firstS msgs, ?_⟩
  intro l₁ l₂ d hsplit hd ht
  rw [hsplit]
  exact streamLoop_skip_divergent_multi firstS d hd ht l₁ l₂

/-- Concrete message list for the C8 witness: a pinned-source `multi`, a
divergent-source `multi`, and a pinned-source `end`. -/
def msgsC8 : List Msg :=
  [⟨.multi, 5, ['B'], .vnum 1, none⟩,
   ⟨.multi, 5, ['C'], .vnum 2, none⟩,
   ⟨.end_, 5, ['B'], .vstr endChars, none⟩]

/-- Witness for the amended C8 at a concrete pinned source and message
list. -/
theorem source_pinning_amended_witness :
    (∀ v ∈ (streamLoop ['B'] msgsC8).1,
      ∃ m ∈ msgsC8, m.s = ['B'] ∧ m.t = .multi ∧ m.p = v)
    ∧ (∀ t p, (streamLoop ['B'] msgsC8).2 = .threwMsg t p →
        ∃ m ∈ msgsC8, m.s = ['B'] ∧ m.t = t ∧ m.p = p)
    ∧ (∀ (l₁ l₂ : List Msg) (d : Msg), msgsC8 = l₁ ++ d :: l₂ → d.s ≠ ['B'] →
        d.t = .multi → streamLoop ['B'] msgsC8 = streamLoop ['B'] (l₁ ++ l₂)) :=
  source_pinning_amended ['B'] msgsC8

/-! ### The pub/sub transport, from `transports/NATSTransport.ts` -/

/-- Association-list lookup, modelling `Map.get`. -/
def alookup {κ ν : Type} [DecidableEq κ] : List (κ × ν) → κ → Option ν
  | [], _ => none
  | (k, v) :: rest, c => if k = c then some v else alookup rest c

/-- Association-list removal, modelling `Map.delete`. -/
def aerase {κ ν : Type} [DecidableEq κ] : List (κ × ν) → κ → List (κ × ν)
  | [], _ => []
  | (k, v) :: rest, c => if k = c then aerase rest c else (k, v) :: aerase rest c

/-- Association-list insertion/overwrite, modelling `Map.set`. -/
def ainsert {κ ν : Type} [DecidableEq κ] (m : List (κ × ν)) (k : κ) (v : ν) :
    List (κ × ν) :=
  (k, v) :: aerase m k

theorem alookup_ainsert_self {κ ν : Type} [DecidableEq κ]
    (m : List (κ × ν)) (k : κ) (v : ν) : alookup (ainsert m k v) k = some v := by
  simp [ainsert, alookup]

theorem alookup_aerase_self {κ ν : Type} [DecidableEq κ] :
    ∀ (m : List (κ × ν)) (k : κ), alookup (aerase m k) k = none
  | [], _ => rfl
  | (k', v') :: rest, k => by
    by_cases h : k' = k <;>
      simp [aerase, alookup, h, alookup_aerase_self rest k]

theorem alookup_aerase_ne {κ ν : Type} [DecidableEq κ] :
    ∀ (m : List (κ × ν)) (k c : κ), c ≠ k → alookup (aerase m k) c = alookup m c
  | [], _, _, _ => rfl
  | (k', v') :: rest, k, c, hne => by
    by_cases h : k' = k
    · subst h
      simp [aerase, alookup, Ne.symm hne, alookup_aerase_ne rest k' c hne]
    · by_cases h2 : k' = c
      · subst h2
        simp [aerase, alookup, h]
      · simp [aerase, alookup, h, h2, alookup_aerase_ne rest k c hne]

theorem alookup_ainsert_ne {κ ν : Type} [DecidableEq κ]
    (m : List (κ × ν)) (k c : κ) (v : ν) (hne : c ≠ k) :
    alookup (ainsert m k v) c = alookup m c := by
  simp [ainsert, alookup, Ne.symm hne, alookup_aerase_ne m k c hne]

/-- The `publishSubject` configuration: a fixed subject string or a
function from messages to subjects. -/
inductive PubSubject where
  | fixed (s : Str)
  | byMsg (f : Msg → Str)

/-- Resolve the outbound subject from the configuration. -/
def resolveSubject (pub : PubSubject) (m : Msg) : Str :=
  match pub with
  | .fixed s => s
  | .byMsg f => f m

/-- The subject-resolution and reply-cache logic of `NATSTransport.send`:
for an `end` message the subject comes from the `subjectById` cache (and the
entry is then deleted); for every other message the subject is resolved from
`publishSubject` and cached under the message's `c` (overwriting).  An
unresolvable subject throws (`Could not get subject`) before any cache
mutation. -/
def natsSendCache (pub : PubSubject) (cache : List (Nat × Str)) (m : Msg) :
    Except Unit (List (Nat × Str) × Str) :=
  let subject? : Option Str :=
    if m.t = .end_ then alookup cache m.c else some (resolveSubject pub m)
  match subject? with
  | none => .error ()
  | some subj =>
    if m.t = .end_ then .ok (aerase cache m.c, subj)
    else .ok (ainsert cache m.c subj, subj)

/-- The cache after one `send`; a thrown send leaves the cache unchanged. -/
def natsSendStep (pub : PubSubject) (cache : List (Nat × Str)) (m : Msg) :
    List (Nat × Str) :=
  match natsSendCache pub cache m with
  | .ok (cache', _) => cache'
  | .error _ => cache

/-- The cache after a sequence of `send`s. -/
def runSends (pub : PubSubject) (cache : List (Nat × Str)) (ops : List Msg) :
    List (Nat × Str) :=
  ops.foldl (natsSendStep pub) cache

theorem natsSendCache_end (pub : PubSubject) (cache : List (Nat × Str)) (m : Msg)
    (hend : m.t = .end_) :
    natsSendCache pub cache m =
      match alookup cache m.c with
      | none => .error ()
      | some subj => .ok (aerase cache m.c, subj) := by
  unfold natsSendCache
  rw [if_pos hend]
  cases alookup cache m.c <;> simp [hend]

theorem natsSendCache_nonend (pub : PubSubject) (cache : List (Nat × Str)) (m : Msg)
    (hne : m.t ≠ .end_) :
    natsSendCache pub cache m
      = .ok (ainsert cache m.c (resolveSubject pub m), resolveSubject pub m) := by
  unfold natsSendCache
  rw [if_neg hne]
  simp [hne]

theorem natsSendStep_end_some (pub : PubSubject) (cache : List (Nat × Str)) (m : Msg)
    (subj : Str) (hend : m.t = .end_) (hl : alookup cache m.c = some subj) :
    natsSendStep pub cache m = aerase cache m.c := by
  unfold natsSendStep
  rw [natsSendCache_end pub cache m hend, hl]

theorem natsSendStep_end_none (pub : PubSubject) (cache : List (Nat × Str)) (m : Msg)
    (hend : m.t = .end_) (hl : alookup cache m.c = none) :
    natsSendStep pub cache m = cache := by
  unfold natsSendStep
  rw [natsSendCache_end pub cache m hend, hl]

theorem natsSendStep_nonend (pub : PubSubject) (cache : List (Nat × Str)) (m : Msg)
    (hne : m.t ≠ .end_) :
    natsSendStep pub cache m = ainsert cache m.c (resolveSubject pub m) := by
  unfold natsSendStep
  rw [natsSendCache_nonend pub cache m hne]

theorem cache_retention (pub : PubSubject) :
    ∀ (ops : List Msg) (cache : List (Nat × Str)) (c₀ : Nat),
      (alookup cache c₀).isSome = true →
      (∀ op ∈ ops, ¬(op.t = .end_ ∧ op.c = c₀)) →
      (alookup (runSends pub cache ops) c₀).isSome = true
  | [], _, _, h, _ => h
  | op :: ops, cache, c₀, h, hops => by
    have hop := hops op (List.mem_cons_self _ _)
    have hrest : ∀ o ∈ ops, ¬(o.t = .end_ ∧ o.c = c₀) :=
      fun o ho => hops o (List.mem_cons_of_mem _ ho)
    show (alookup (runSends pub (natsSendStep pub cache op) ops) c₀).isSome = true
    refine cache_retention pub ops _ c₀ ?_ hrest
    by_cases hend : op.t = .end_
    · have hc : op.c ≠ c₀ := fun hc => hop ⟨hend, hc⟩
      cases hl : alookup cache op.c with
      | none => rw [natsSendStep_end_none pub cache op hend hl]; exact h
      | some subj =>
        rw [natsSendStep_end_some pub cache op subj hend hl,
          alookup_aerase_ne cache op.c c₀ (Ne.symm hc)]
        exact h
    · rw [natsSendStep_nonend pub cache op hend]
      by_cases hc : c₀ = op.c
      · subst hc
        rw [alookup_ainsert_self]
        rfl
      · rw [alookup_ainsert_ne _ _ _ _ hc]
        exact h

/-- C10: in the pub/sub transport, every send of a non-`end` message
registers (or overwrites) the cache entry `c ↦ subject`; the only removal of
that entry is a successful send of an `end` with the same `c`; sends for
other conversations never change the entry; and over any sequence of sends
containing no `end` for `c`, an existing entry for `c` is retained. -/
theorem subject_cache_lifecycle (pub : PubSubject) (cache : List (Nat × Str)) (m : Msg) :
    (m.t ≠ .end_ →
      natsSendCache pub cache m
        = .ok (ainsert cache m.c (resolveSubject pub m), resolveSubject pub m)
      ∧ alookup (ainsert cache m.c (resolveSubject pub m)) m.c
          = some (resolveSubject pub m))
    ∧ (∀ subj, m.t = .end_ → alookup cache m.c = some subj →
        natsSendCache pub cache m = .ok (aerase cache m.c, subj)
        ∧ alookup (aerase cache m.c) m.c = none)
    ∧ (∀ c', c' ≠ m.c → alookup (natsSendStep pub cache m) c' = alookup cache c')
    ∧ (∀ (ops : List Msg) (c₀ : Nat),
        (alookup cache c₀).isSome = true →
        (∀ op ∈ ops, ¬(op.t = .end_ ∧ op.c = c₀)) →
        (alookup (runSends pub cache ops) c₀).isSome = true) := by
  refine ⟨?_, ?_, ?_, fun ops c₀ h hops => cache_retention pub ops cache c₀ h hops⟩
  · intro hne
    exact ⟨natsSendCache_nonend pub cache m hne, alookup_ainsert_self _ _ _⟩
  · intro subj hend hl
    refine ⟨?_, alookup_aerase_self _ _⟩
    rw [natsSendCache_end pub cache m hend, hl]
  · intro c' hc
    by_cases hend : m.t = .end_
    · cases hl : alookup cache m.c with
      | none => rw [natsSendStep_end_none pub cache m hend hl]
      | some subj =>
        rw [natsSendStep_end_some pub cache m subj hend hl]
        exact alookup_aerase_ne cache m.c c' hc
    · rw [natsSendStep_nonend pub cache m hend]
      exact alookup_ainsert_ne cache m.c c' _ hc

/-- Concrete non-`end` message for the C10 witness. -/
def mC10 : Msg := ⟨.response, 3, ['R'], .vnum 1, none⟩

/-- Witness for C10 at a fixed publish subject, an empty cache and a
concrete `response` message. -/
theorem subject_cache_lifecycle_witness :
    ((mC10.t ≠ .end_ →
      natsSendCache (.fixed ['x']) [] mC10
        = .ok (ainsert [] mC10.c (resolveSubject (.fixed ['x']) mC10),
            resolveSubject (.fixed ['x']) mC10)
      ∧ alookup (ainsert [] mC10.c (resolveSubject (.fixed ['x']) mC10)) mC10.c
          = some (resolveSubject (.fixed ['x']) mC10))
    ∧ (∀ subj, mC10.t = .end_ → alookup [] mC10.c = some subj →
        natsSendCache (.fixed ['x']) [] mC10 = .ok (aerase [] mC10.c, subj)
        ∧ alookup (aerase ([] : List (Nat × Str)) mC10.c) mC10.c = none)
    ∧ (∀ c', c' ≠ mC10.c →
        alookup (natsSendStep (.fixed ['x']) [] mC10) c' = alookup [] c')
    ∧ (∀ (ops : List Msg) (c₀ : Nat),
        (alookup ([] : List (Nat × Str)) c₀).isSome = true →
        (∀ op ∈ ops, ¬(op.t = .end_ ∧ op.c = c₀)) →
        (alookup (runSends (.fixed ['x']) [] ops) c₀).isSome = true)) :=
  subject_cache_lifecycle (.fixed ['x']) [] mC10

/-! ### Chunked framing, from `NATSTransport.sendMessageInChunks` and
`NATSTransport.receiveMessageChunk` -/

/-- The UTF-8 bytes of the fixed chunk prefix `"@phnq/message/chunk"`. -/
def chunkHeaderPrefix : List Nat :=
  [64, 112, 104, 110, 113, 47, 109, 101, 115, 115, 97, 103, 101, 47, 99, 104, 117, 110, 107]

/-- The chunk header length: prefix plus 16 nonce bytes plus one index byte
plus one total byte (`CHUNK_HEADER_PREFIX.length + 18 = 37`). -/
def chunkHeaderLen : Nat := chunkHeaderPrefix.length + 18

/-- The chunk body capacity `maxPayload - chunkHeaderLen`. -/
def chunkBodyLenOf (maxPayload : Nat) : Nat := maxPayload - chunkHeaderLen

/-- `Math.ceil(marshalledMessage.length / chunkBodyLen)`. -/
def numChunksOf (maxPayload : Nat) (marshalled : List Nat) : Nat :=
  (marshalled.length + chunkBodyLenOf maxPayload - 1) / chunkBodyLenOf maxPayload

/-- The body slice of chunk `i`:
`marshalledMessage.slice(i * chunkBodyLen, (i + 1) * chunkBodyLen)`. -/
def bodySlice (b : Nat) (M : List Nat) (i : Nat) : List Nat :=
  (M.drop (i * b)).take b

/-- Chunk `i` of a message with body capacity `b` and chunk count `n`:
`[CHUNK_HEADER_PREFIX | nonce(16) | index(1) | total(1) | body]`.  The index
and total are stored through `new Uint8Array([i, numChunks])`, which
truncates both to a single byte — hence the `% 256`. -/
def chunkOf (b n : Nat) (nonce M : List Nat) (i : Nat) : List Nat :=
  chunkHeaderPrefix ++ nonce ++ [i % 256, n % 256] ++ bodySlice b M i

/-- The `sendMessageInChunks` loop: publish chunk `i` for each
`i < numChunks`, in order.  There is no check anywhere that `numChunks`
fits in the single total byte. -/
def sendMessageInChunks (maxPayload : Nat) (nonce marshalled : List Nat) :
    List (List Nat) :=
  (List.range (numChunksOf maxPayload marshalled)).map
    (chunkOf (chunkBodyLenOf maxPayload) (numChunksOf maxPayload marshalled)
      nonce marshalled)

/-- Concrete 16-byte nonce for the chunking claims. -/
def nonceC3 : List Nat := List.replicate 16 0

set_option maxRecDepth 4000 in
/-- C3: the sender does not refuse oversized messages.  With
`maxPayload = 38` (body capacity 1) and a 256-byte message, `numChunks`
is 256 — beyond what the single total byte can carry — yet
`sendMessageInChunks` publishes all 256 chunks, each carrying the truncated
total byte `256 % 256 = 0`, instead of failing as the claim requires. -/
theorem oversized_chunking_not_refused :
    (sendMessageInChunks 38 nonceC3 (List.replicate 256 7)).length = 256
    ∧ ∀ ch ∈ sendMessageInChunks 38 nonceC3 (List.replicate 256 7), ch[36]? = some 0 := by
  constructor
  · decide
  · decide

/-- JavaScript array element assignment `a[i] = v`: in-place update when
`i` is within bounds, extension with holes (`undefined` slots) beyond. -/
def setExtend (slots : List (Option (List Nat))) (i : Nat) (v : List Nat) :
    List (Option (List Nat)) :=
  if i < slots.length then slots.set i (some v)
  else slots ++ List.replicate (i - slots.length) none ++ [some v]

/-- The pub/sub transport's chunk-reassembly state: the `chunkedMessages`
map (keyed by the chunk nonce — the source keys by `hash(nonceBytes)`, an
injective fingerprint of the 16 nonce bytes, modelled by the bytes
themselves) and the list of reassembled messages handed to the receive
handler so far, in order. -/
structure ChunkState where
  buffers : List (List Nat × List (Option (List Nat)))
  delivered : List (List Nat)
deriving DecidableEq, Repr

/-- The `receiveMessageChunk` method: read the nonce, index and total from
the chunk header (a chunk too short to carry index and total is logged and
dropped), fetch or create the slot array of length `total`, store the body
at the index, and — when every slot is populated (`length ===
filter(Boolean).length`; the bodies are `Uint8Array`s, which are truthy) —
concatenate the bodies in index order, deliver, and delete the map
entry. -/
def receiveMessageChunk (st : ChunkState) (chunkBuf : List Nat) : ChunkState :=
  let prefixLen := chunkHeaderPrefix.length
  let key := (chunkBuf.drop prefixLen).take 16
  match chunkBuf[prefixLen + 16]?, chunkBuf[prefixLen + 17]? with
  | some chunkIndex, some numChunks =>
    let slots := (alookup st.buffers key).getD (List.replicate numChunks none)
    let slots' := setExtend slots chunkIndex (chunkBuf.drop (prefixLen + 18))
    if slots'.all Option.isSome then
      { buffers := aerase st.buffers key,
        delivered := st.delivered ++ [(slots'.filterMap id).flatten] }
    else
      { buffers := ainsert st.buffers key slots', delivered := st.delivered }
  | _, _ => st

/-- Fold `receiveMessageChunk` over arriving datagrams. -/
def runChunks (st : ChunkState) (chunks : List (List Nat)) : ChunkState :=
  chunks.foldl receiveMessageChunk st

/-- The slot array after the chunks with indices in `done` have arrived:
slot `j` holds body `j` iff `j ∈ done`. -/
def slotsFor (b n : Nat) (M : List Nat) (done : List Nat) :
    List (Option (List Nat)) :=
  (List.range n).map (fun j => if j ∈ done then some (bodySlice b M j) else none)

/-- The `chunkedMessages` map after the chunks with indices in `done` have
arrived (and the message is not yet complete). -/
def bufferStateFor (b n : Nat) (nonce M : List Nat) (done : List Nat) :
    List (List Nat × List (Option (List Nat))) :=
  if done.isEmpty then [] else [(nonce, slotsFor b n M done)]

theorem chunkOf_key (b n : Nat) (nonce M : List Nat) (i : Nat)
    (hn : nonce.length = 16) :
    ((chunkOf b n nonce M i).drop chunkHeaderPrefix.length).take 16 = nonce := by
  unfold chunkOf
  rw [show chunkHeaderPrefix ++ nonce ++ [i % 256, n % 256] ++ bodySlice b M i
      = chunkHeaderPrefix ++ (nonce ++ ([i % 256, n % 256] ++ bodySlice b M i))
      from by simp]
  rw [List.drop_left' rfl]
  exact List.take_left' hn

theorem chunkOf_index (b n : Nat) (nonce M : List Nat) (i : Nat)
    (hn : nonce.length = 16) :
    (chunkOf b n nonce M i)[chunkHeaderPrefix.length + 16]? = some (i % 256) := by
  unfold chunkOf
  rw [show chunkHeaderPrefix ++ nonce ++ [i % 256, n % 256] ++ bodySlice b M i
      = (chunkHeaderPrefix ++ nonce) ++ ([i % 256, n % 256] ++ bodySlice b M i)
      from by simp]
  have hlen : (chunkHeaderPrefix ++ nonce).length = chunkHeaderPrefix.length + 16 := by
    simp [hn]
  rw [List.getElem?_append_right (le_of_eq hlen)]
  simp [hlen]

theorem chunkOf_total (b n : Nat) (nonce M : List Nat) (i : Nat)
    (hn : nonce.length = 16) :
    (chunkOf b n nonce M i)[chunkHeaderPrefix.length + 17]? = some (n % 256) := by
  unfold chunkOf
  rw [show chunkHeaderPrefix ++ nonce ++ [i % 256, n % 256] ++ bodySlice b M i
      = (chunkHeaderPrefix ++ nonce) ++ ([i % 256, n % 256] ++ bodySlice b M i)
      from by simp]
  have hlen : (chunkHeaderPrefix ++ nonce).length = chunkHeaderPrefix.length + 16 := by
    simp [hn]
  have hle : (chunkHeaderPrefix ++ nonce).length ≤ chunkHeaderPrefix.length + 17 := by
    omega
  rw [List.getElem?_append_right hle]
  rw [hlen]
  have : chunkHeaderPrefix.length + 17 - (chunkHeaderPrefix.length + 16) = 1 := by omega
  rw [this]
  simp

theorem chunkOf_body (b n : Nat) (nonce M : List Nat) (i : Nat)
    (hn : nonce.length = 16) :
    (chunkOf b n nonce M i).drop (chunkHeaderPrefix.length + 18) = bodySlice b M i := by
  unfold chunkOf
  rw [show chunkHeaderPrefix ++ nonce ++ [i % 256, n % 256] ++ bodySlice b M i
      = (chunkHeaderPrefix ++ nonce ++ [i % 256, n % 256]) ++ bodySlice b M i
      from by simp]
  refine List.drop_left' ?_
  simp [hn]

theorem slotsFor_nil (b n : Nat) (M : List Nat) :
    slotsFor b n M [] = List.replicate n none := by
  rw [List.eq_replicate_iff]
  refine ⟨by simp [slotsFor], ?_⟩
  intro x hx
  simp only [slotsFor, List.mem_map] at hx
  obtain ⟨j, _, hj⟩ := hx
  simpa using hj.symm

theorem slotsFor_length (b n : Nat) (M : List Nat) (done : List Nat) :
    (slotsFor b n M done).length = n := by
  simp [slotsFor]

theorem slotsFor_getElem (b n : Nat) (M : List Nat) (done : List Nat) (j : Nat)
    (hj : j < n) :
    (slotsFor b n M done)[j]?
      = some (if j ∈ done then some (bodySlice b M j) else none) := by
  simp [slotsFor, List.getElem?_map, List.getElem?_range, hj]

theorem slotsFor_set (b n : Nat) (M : List Nat) (done : List Nat) (i : Nat)
    (hi : i < n) :
    (slotsFor b n M done).set i (some (bodySlice b M i))
      = slotsFor b n M (done ++ [i]) := by
  apply List.ext_getElem?
  intro j
  by_cases hj : j < n
  · by_cases hij : j = i
    · subst hij
      rw [List.getElem?_set_eq_of_lt _ (by rw [slotsFor_length]; exact hj),
        slotsFor_getElem b n M _ j hj]
      simp
    · rw [List.getElem?_set_ne (fun h => hij h.symm),
        slotsFor_getElem b n M _ j hj, slotsFor_getElem b n M _ j hj]
      simp [List.mem_append, hij]
  · rw [List.getElem?_eq_none (by simp [slotsFor_length]; omega),
      List.getElem?_eq_none (by simp [slotsFor_length]; omega)]

theorem slotsFor_all_isSome (b n : Nat) (M : List Nat) (done : List Nat) :
    (slotsFor b n M done).all Option.isSome = true ↔ ∀ j < n, j ∈ done := by
  rw [List.all_eq_true]
  constructor
  · intro h j hj
    have := h (if j ∈ done then some (bodySlice b M j) else none)
      (by simp only [slotsFor, List.mem_map]
          exact ⟨j, by simp [hj]⟩)
    by_cases hmem : j ∈ done
    · exact hmem
    · simp [hmem] at this
  · intro h x hx
    simp only [slotsFor, List.mem_map] at hx
    obtain ⟨j, hj, hx⟩ := hx
    rw [List.mem_range] at hj
    rw [if_pos (h j hj)] at hx
    rw [← hx]
    rfl

theorem not_all_present (n : Nat) (done : List Nat)
    (hlt : done.length < n) : ¬∀ j < n, j ∈ done := by
  intro hall
  have hsub : List.range n ⊆ done := fun j hj => hall j (List.mem_range.mp hj)
  have := (List.subperm_of_subset (List.nodup_range n) hsub).length_le
  simp at this
  omega

theorem setExtend_lt (slots : List (Option (List Nat))) (i : Nat) (v : List Nat)
    (h : i < slots.length) : setExtend slots i v = slots.set i (some v) :=
  if_pos h

theorem bufferStateFor_alookup (b n : Nat) (nonce M : List Nat) (ys : List Nat) :
    (alookup (bufferStateFor b n nonce M ys) nonce).getD (List.replicate n none)
      = slotsFor b n M ys := by
  unfold bufferStateFor
  split
  · rename_i h
    rw [show ys = [] from by simpa [List.isEmpty_iff] using h]
    simp [alookup, slotsFor_nil]
  · simp [alookup]

theorem bufferStateFor_aerase (b n : Nat) (nonce M : List Nat) (ys : List Nat) :
    aerase (bufferStateFor b n nonce M ys) nonce = [] := by
  unfold bufferStateFor
  split
  · rfl
  · simp [aerase]

theorem bufferStateFor_ainsert (b n : Nat) (nonce M : List Nat) (ys : List Nat)
    (v : List (Option (List Nat))) :
    ainsert (bufferStateFor b n nonce M ys) nonce v = [(nonce, v)] := by
  simp [ainsert, bufferStateFor_ainsert, bufferStateFor_aerase]

theorem receive_chunkOf (b n : Nat) (nonce M : List Nat) (hn : nonce.length = 16)
    (h255 : n ≤ 255) (ys : List Nat) (dlv : List (List Nat)) (i : Nat) (hi : i < n) :
    receiveMessageChunk ⟨bufferStateFor b n nonce M ys, dlv⟩ (chunkOf b n nonce M i)
      = if (slotsFor b n M (ys ++ [i])).all Option.isSome then
          ⟨[], dlv ++ [((slotsFor b n M (ys ++ [i])).filterMap id).flatten]⟩
        else ⟨[(nonce, slotsFor b n M (ys ++ [i]))], dlv⟩ := by
  have hmodi : i % 256 = i := Nat.mod_eq_of_lt (by omega)
  have hmodn : n % 256 = n := Nat.mod_eq_of_lt (by omega)
  simp only [receiveMessageChunk]
  rw [chunkOf_index b n nonce M i hn, chunkOf_total b n nonce M i hn]
  simp only [hmodi, hmodn]
  rw [chunkOf_key b n nonce M i hn, chunkOf_body b n nonce M i hn,
    bufferStateFor_alookup b n nonce M ys,
    setExtend_lt _ _ _ (by rw [slotsFor_length]; exact hi),
    slotsFor_set b n M ys i hi]
  split
  · rw [bufferStateFor_aerase]
  · rw [bufferStateFor_ainsert]

theorem runChunks_incomplete (b n : Nat) (nonce M : List Nat) (hn : nonce.length = 16)
    (h255 : n ≤ 255) :
    ∀ done : List Nat, (∀ i ∈ done, i < n) → done.length < n →
      runChunks ⟨[], []⟩ (done.map (chunkOf b n nonce M))
        = ⟨bufferStateFor b n nonce M done, []⟩ := by
  intro done
  induction done using List.reverseRecOn with
  | nil =>
    intro _ _
    simp [runChunks, bufferStateFor]
  | append_singleton ys i ih =>
    intro hbound hlen
    have hysb : ∀ j ∈ ys, j < n := fun j hj => hbound j (by simp [hj])
    have hysl : ys.length < n := by
      simp at hlen
      omega
    have hi : i < n := hbound i (by simp)
    rw [List.map_append, runChunks, List.foldl_append]
    show receiveMessageChunk (runChunks ⟨[], []⟩ (ys.map (chunkOf b n nonce M)))
      (chunkOf b n nonce M i) = _
    rw [ih hysb hysl, receive_chunkOf b n nonce M hn h255 ys [] i hi]
    rw [if_neg]
    · unfold bufferStateFor
      rw [if_neg (by simp)]
    · rw [slotsFor_all_isSome]
      exact not_all_present n (ys ++ [i]) (by simpa using hlen)

theorem flatten_bodySlices (b : Nat) (M : List Nat) :
    ∀ k : Nat, ((List.range k).map (bodySlice b M)).flatten = M.take (k * b)
  | 0 => by simp
  | k + 1 => by
    rw [List.range_succ, List.map_append, List.flatten_append,
      flatten_bodySlices b M k]
    simp only [List.map_cons, List.map_nil, List.flatten_cons, List.flatten_nil,
      List.append_nil]
    rw [show (k + 1) * b = k * b + b from by ring, List.take_add]
    rfl

theorem runChunks_complete (b n : Nat) (nonce M : List Nat) (hn : nonce.length = 16)
    (h255 : n ≤ 255) (hn1 : 1 ≤ n) :
    ∀ idxs : List Nat, idxs.Perm (List.range n) →
      runChunks ⟨[], []⟩ (idxs.map (chunkOf b n nonce M))
        = ⟨[], [((List.range n).map (bodySlice b M)).flatten]⟩ := by
  intro idxs hperm
  have hlen : idxs.length = n := by simpa using hperm.length_eq
  have hbound : ∀ i ∈ idxs, i < n := fun i hi =>
    List.mem_range.mp (hperm.subset hi)
  rcases List.eq_nil_or_concat idxs with hnil | ⟨ys, i, hconcat⟩
  · rw [hnil] at hlen
    simp at hlen
    omega
  · subst hconcat
    simp only [List.concat_eq_append] at hperm hlen hbound ⊢
    have hysb : ∀ j ∈ ys, j < n := fun j hj => hbound j (by simp [hj])
    have hysl : ys.length < n := by
      simp at hlen
      omega
    have hi : i < n := hbound i (by simp)
    rw [List.map_append, runChunks, List.foldl_append]
    show receiveMessageChunk (runChunks ⟨[], []⟩ (ys.map (chunkOf b n nonce M)))
      (chunkOf b n nonce M i) = _
    rw [runChunks_incomplete b n nonce M hn h255 ys hysb hysl,
      receive_chunkOf b n nonce M hn h255 ys [] i hi]
    have hall : ∀ j < n, j ∈ ys ++ [i] := fun j hj =>
      hperm.symm.subset (List.mem_range.mpr hj)
    rw [if_pos ((slotsFor_all_isSome b n M (ys ++ [i])).mpr hall)]
    have hfm : (slotsFor b n M (ys ++ [i])).filterMap id
        = (List.range n).map (bodySlice b M) := by
      unfold slotsFor
      rw [List.filterMap_map]
      have : ∀ j ∈ List.range n,
          (id ∘ fun j => if j ∈ ys ++ [i] then some (bodySlice b M j) else none) j
            = some (bodySlice b M j) := by
        intro j hj
        simp only [Function.comp_apply, id_eq,
          if_pos (hall j (List.mem_range.mp hj))]
      rw [List.filterMap_congr this]
      rw [List.filterMap_eq_map_iff_forall_eq_some.mpr fun x _ => rfl]
    rw [hfm]
    simp

/-- C7: chunk reassembly.  For a marshalled message that needs chunking
(longer than `maxPayload`), with a 16-byte nonce and a chunk count that fits
the single total byte, the send side emits exactly the chunks
`chunkOf 0 .. chunkOf (numChunks-1)`; for every arrival order (permutation)
of those chunks the receiver delivers exactly the original marshalled
message, exactly once, with the chunk buffer cleaned up; and after any
proper prefix of the arrivals nothing has been delivered (the buffer holds
exactly the partially filled slot array), so no partially reassembled
message ever leaks. -/
theorem chunk_reassembly_all_orders (maxPayload : Nat) (nonce M : List Nat)
    (hn : nonce.length = 16) (hbody : chunkHeaderLen < maxPayload)
    (hbig : maxPayload < M.length)
    (h255 : numChunksOf maxPayload M ≤ 255) :
    sendMessageInChunks maxPayload nonce M
      = (List.range (numChunksOf maxPayload M)).map
          (chunkOf (chunkBodyLenOf maxPayload) (numChunksOf maxPayload M) nonce M)
    ∧ (∀ idxs : List Nat, idxs.Perm (List.range (numChunksOf maxPayload M)) →
        runChunks ⟨[], []⟩
          (idxs.map (chunkOf (chunkBodyLenOf maxPayload) (numChunksOf maxPayload M)
            nonce M))
          = ⟨[], [M]⟩)
    ∧ (∀ pre idxs : List Nat, idxs.Perm (List.range (numChunksOf maxPayload M)) →
        List.IsPrefix pre idxs → pre ≠ idxs →
        runChunks ⟨[], []⟩
          (pre.map (chunkOf (chunkBodyLenOf maxPayload) (numChunksOf maxPayload M)
            nonce M))
          = ⟨bufferStateFor (chunkBodyLenOf maxPayload) (numChunksOf maxPayload M)
              nonce M pre, []⟩) := by
  have hb : 1 ≤ chunkBodyLenOf maxPayload := by
    unfold chunkBodyLenOf
    omega
  have hbM : chunkBodyLenOf maxPayload ≤ M.length + chunkBodyLenOf maxPayload - 1 := by
    omega
  have hn1 : 1 ≤ numChunksOf maxPayload M := by
    unfold numChunksOf
    rw [Nat.one_le_div_iff (by omega)]
    exact hbM
  have hMn : M.length ≤ numChunksOf maxPayload M * chunkBodyLenOf maxPayload := by
    have hq : numChunksOf maxPayload M
        = (M.length + chunkBodyLenOf maxPayload - 1) / chunkBodyLenOf maxPayload := rfl
    have hdm := Nat.div_add_mod (M.length + chunkBodyLenOf maxPayload - 1)
      (chunkBodyLenOf maxPayload)
    rw [← hq] at hdm
    have hr : (M.length + chunkBodyLenOf maxPayload - 1) % chunkBodyLenOf maxPayload
        < chunkBodyLenOf maxPayload := Nat.mod_lt _ (by omega)
    have hcomm : numChunksOf maxPayload M * chunkBodyLenOf maxPayload
        = chunkBodyLenOf maxPayload * numChunksOf maxPayload M :=
      Nat.mul_comm _ _
    omega
  refine ⟨rfl, ?_, ?_⟩
  · intro idxs hperm
    rw [runChunks_complete (chunkBodyLenOf maxPayload) (numChunksOf maxPayload M)
      nonce M hn h255 hn1 idxs hperm,
      flatten_bodySlices, List.take_of_length_le hMn]
  · intro pre idxs hperm hpre hne
    have hlen : idxs.length = numChunksOf maxPayload M := by
      simpa using hperm.length_eq
    have hprelen : pre.length < numChunksOf maxPayload M := by
      rcases Nat.lt_or_ge pre.length idxs.length with h | h
      · omega
      · have heq : pre.length = idxs.length := le_antisymm hpre.length_le h
        exact absurd (hpre.eq_of_length heq) hne
    have hbound : ∀ j ∈ pre, j < numChunksOf maxPayload M := fun j hj =>
      List.mem_range.mp (hperm.subset (hpre.subset hj))
    exact runChunks_incomplete _ _ nonce M hn h255 pre hbound hprelen

/-- Concrete 40-byte marshalled message for the C7 witness (chunked into 40
one-byte bodies at `maxPayload = 38`). -/
def mC7 : List Nat := List.range 40

/-- Concrete 16-byte nonce for the C7 witness. -/
def nonceC7 : List Nat := List.replicate 16 1

/-- Witness for C7 at a concrete payload, nonce and `maxPayload`. -/
theorem chunk_reassembly_all_orders_witness :
    (nonceC7.length = 16 ∧ chunkHeaderLen < 38 ∧ 38 < mC7.length
      ∧ numChunksOf 38 mC7 ≤ 255)
    ∧ (sendMessageInChunks 38 nonceC7 mC7
        = (List.range (numChunksOf 38 mC7)).map
            (chunkOf (chunkBodyLenOf 38) (numChunksOf 38 mC7) nonceC7 mC7)
      ∧ (∀ idxs : List Nat, idxs.Perm (List.range (numChunksOf 38 mC7)) →
          runChunks ⟨[], []⟩
            (idxs.map (chunkOf (chunkBodyLenOf 38) (numChunksOf 38 mC7) nonceC7 mC7))
            = ⟨[], [mC7]⟩)
      ∧ (∀ pre idxs : List Nat, idxs.Perm (List.range (numChunksOf 38 mC7)) →
          List.IsPrefix pre idxs → pre ≠ idxs →
          runChunks ⟨[], []⟩
            (pre.map (chunkOf (chunkBodyLenOf 38) (numChunksOf 38 mC7) nonceC7 mC7))
            = ⟨bufferStateFor (chunkBodyLenOf 38) (numChunksOf 38 mC7)
                nonceC7 mC7 pre, []⟩)) :=
  ⟨⟨by decide, by decide, by decide, by decide⟩,
    chunk_reassembly_all_orders 38 nonceC7 mC7 (by decide) (by decide) (by decide)
      (by decide)⟩
